import Mathlib

/-!
Shallow embedding of the `go-config` library (package `goconfig`).

Strings are modelled as `List Char`. The process environment is modelled as a
function `List Char → List Char`, mirroring `os.Getenv`, which returns the
empty string both for unset variables and for variables set to the empty
string. A Go `panic` is modelled as a dedicated result constructor, distinct
from a normal error return.
-/

deriving instance DecidableEq for Except

namespace GoConfig

/-- Strings as lists of characters. -/
abbrev Str := List Char

/-- Convert a Lean string literal to the character-list representation. -/
def str (s : String) : Str := s.toList

/-- Word character class of Go regexp `\w`: ASCII letters, digits, underscore. -/
def isWordChar (c : Char) : Bool := c.isAlphanum || c = '_'

/-- The error values of the package (the `errors.New` values of the v2
`errors.go` file, each carrying the argument it is formatted with). -/
inductive GoErr where
  | unmarshalling (msg : Str)
  | variableNotFound (name : Str)
  | unsupportedExt (name : Str)
  | readingFile (name : Str)
  | openDir
  | openEnvFile (path : Str)
  | invalidEnvFormat (line : Str)
deriving DecidableEq, Repr

/-- Leftmost-match test of the regex `\$\x7b(\w+)\x7d` at the head of the
input: if the input starts with a placeholder, return its name and the rest
of the input after the closing brace. The name is the maximal nonempty run of
word characters after the opening brace (RE2 greedy `\w+`, then the literal
closing brace must follow). -/
def phAt : Str → Option (Str × Str)
  | '$' :: '{' :: rest =>
    match rest.takeWhile isWordChar, rest.dropWhile isWordChar with
    | w, '}' :: r2 => if w = [] then none else some (w, r2)
    | _, _ => none
  | _ => none

/-- Result of `replaceEnvVariables`: a normal string, or a panic carrying an
error (the Go callback panics instead of returning an error). -/
inductive SubstResult where
  | ok (s : Str)
  | panicked (e : GoErr)
deriving DecidableEq, Repr

/-- Prepend a character to the output of a substitution, propagating a panic. -/
def consR (c : Char) : SubstResult → SubstResult
  | .ok s => .ok (c :: s)
  | .panicked e => .panicked e

/-- Prepend a replacement value to the output, propagating a panic. -/
def appendR (v : Str) : SubstResult → SubstResult
  | .ok s => .ok (v ++ s)
  | .panicked e => .panicked e

/-- If the input starts with a placeholder, the remainder after the match is
more than three characters shorter than the input. -/
theorem phAt_length {s w r2 : Str} (h : phAt s = some (w, r2)) :
    r2.length + 3 ≤ s.length := by
  unfold phAt at h
  split at h
  next rest =>
    have hsplit : rest.takeWhile isWordChar ++ rest.dropWhile isWordChar = rest :=
      List.takeWhile_append_dropWhile isWordChar rest
    split at h
    next w2 r2' hdrop =>
      split at h
      · exact absurd h (by simp)
      · simp only [Option.some.injEq, Prod.mk.injEq] at h
        obtain ⟨rfl, rfl⟩ := h
        have : (rest.takeWhile isWordChar).length + (r2'.length + 1) = rest.length := by
          have := congrArg List.length hsplit
          rw [hdrop] at this
          simpa using this
        simp only [List.length_cons]
        omega
    next => exact absurd h (by simp)
  next => exact absurd h (by simp)

/-- Model of `replaceEnvVariables` (src/goconfig/config.go:130-140):
`regexEnv.ReplaceAllStringFunc` scans left to right for `\$\x7b(\w+)\x7d`
matches; each match is replaced by `os.Getenv(name)`, and when that value is
empty the callback panics with `ErrVariableNotFound` wrapping the name.
Replacement values are not rescanned; at a position with no match the scanner
advances one character. The recursion is driven by an upper bound on the
length of the remaining input, so the function stays kernel-computable. -/
def replaceEnvVariables.go (env : Str → Str) : Str → (n : Nat) → SubstResult
  | [], _ => .ok []
  | _ :: _, 0 => .ok []
  | c :: rest, n + 1 =>
    match phAt (c :: rest) with
    | some (w, r2) =>
      if env w = [] then .panicked (.variableNotFound w)
      else appendR (env w) (replaceEnvVariables.go env r2 n)
    | none => consR c (replaceEnvVariables.go env rest n)

/-- Model of `replaceEnvVariables`, entered with enough budget for the whole
input (the budget strictly dominates the length at every recursive call, so
the `0`-budget branch of `go` is never reached from here). -/
def replaceEnvVariables (env : Str → Str) (s : Str) : SubstResult :=
  replaceEnvVariables.go env s s.length

/-- The text contains an occurrence of the placeholder pattern
`\$\x7b(\w+)\x7d`: some decomposition exhibits a dollar sign, an opening
brace, a nonempty run of word characters and a closing brace. -/
def ContainsPlaceholder (s : Str) : Prop :=
  ∃ a w b, w ≠ [] ∧ (∀ c ∈ w, isWordChar c = true) ∧
    s = a ++ '$' :: '{' :: (w ++ '}' :: b)

/-- Computable scan for a placeholder occurrence (same scan as the
substitution function). -/
def containsPlaceholderB : Str → Bool
  | [] => false
  | c :: rest =>
    match phAt (c :: rest) with
    | some _ => true
    | none => containsPlaceholderB rest

/-- Every placeholder occurring in `a` resolves to a nonempty value in `env`. -/
def ResolvesAll (env : Str → Str) (a : Str) : Prop :=
  ∀ a₁ w b₁, w ≠ [] → (∀ c ∈ w, isWordChar c = true) →
    a = a₁ ++ '$' :: '{' :: (w ++ '}' :: b₁) → env w ≠ []

/-! ## File location (`read`) -/

/-- A directory entry as seen by `read`: the file name returned by
`os.ReadDir` and the byte content `os.ReadFile` would deliver. -/
structure DirEntry where
  name : Str
  content : Str
deriving DecidableEq

/-- Model of `strings.Cut(name, ".")`: split at the first dot; `none` when the
name has no dot (the `found` flag is false). -/
def cutDot (name : Str) : Option (Str × Str) :=
  if '.' ∈ name then
    some (name.takeWhile (· != '.'), (name.dropWhile (· != '.')).tail)
  else none

/-- Model of `strings.EqualFold` restricted to ASCII simple folding:
both sides agree after lowercasing each character. -/
def eqFold (a b : Str) : Bool := a.map Char.toLower == b.map Char.toLower

/-- The deny list of the v2 `read` (src/goconfig/config.go:16). -/
def excludeExtensions : List Str := [str "go"]

/-- The allow list of the v1 `read` (`supportedExtensions`). -/
def supportedExtensions : List Str := [str "yaml", str "yml", str "json"]

/-- Result of `read`: content, a returned error, or a propagated panic. -/
inductive ReadResult where
  | okR (content : Str)
  | errR (e : GoErr)
  | panicR (e : GoErr)
deriving DecidableEq

/-- Lift the result of the substitution pass into a `read` result: a panic in
the callback propagates out of `read`, which installs no recover. -/
def substToRead : SubstResult → ReadResult
  | .ok s => .okR s
  | .panicked e => .panicR e

/-- The loop of the v2 `read` (src/goconfig/config.go:103-125): for each
directory entry in listing order, cut the name at the first dot (skip when no
dot), skip extensions on the deny list, and on the first case-insensitive
stem match read the file and substitute placeholders; when no entry matches,
return `ErrUnsupportedExt` wrapping the logical name. -/
def readGo (env : Str → Str) (fileName : Str) : List DirEntry → ReadResult
  | [] => .errR (.unsupportedExt fileName)
  | e :: rest =>
    match cutDot e.name with
    | none => readGo env fileName rest
    | some (nm, ext) =>
      if ext ∈ excludeExtensions then readGo env fileName rest
      else if eqFold nm fileName then substToRead (replaceEnvVariables env e.content)
      else readGo env fileName rest

/-- Model of the v2 `read` (src/goconfig/config.go:92-126): the directory is
`none` when `os.ReadDir` fails, otherwise its listing in order. -/
def read (env : Str → Str) (dir : Option (List DirEntry)) (fileName : Str) : ReadResult :=
  match dir with
  | none => .errR .openDir
  | some files => readGo env fileName files

/-- The loop of the v1 `read`: identical except that the extension filter is
the allow list `supportedExtensions` instead of the deny list. -/
def readGoV1 (env : Str → Str) (profile : Str) : List DirEntry → ReadResult
  | [] => .errR (.unsupportedExt profile)
  | e :: rest =>
    match cutDot e.name with
    | none => readGoV1 env profile rest
    | some (nm, ext) =>
      if ext ∈ supportedExtensions then
        if eqFold nm profile then substToRead (replaceEnvVariables env e.content)
        else readGoV1 env profile rest
      else readGoV1 env profile rest

/-- Model of the v1 `read` (allow-list variant). -/
def readV1 (env : Str → Str) (dir : Option (List DirEntry)) (profile : Str) : ReadResult :=
  match dir with
  | none => .errR .openDir
  | some files => readGoV1 env profile files

/-- An entry is selected by the v2 loop: it has an extension, the extension is
not on the deny list, and the stem matches the logical name case-insensitively. -/
def selects (fileName : Str) (e : DirEntry) : Bool :=
  match cutDot e.name with
  | none => false
  | some (nm, ext) => decide (ext ∉ excludeExtensions) && eqFold nm fileName

/-- An entry is selected by the v1 loop (allow-list variant). -/
def selectsV1 (profile : Str) (e : DirEntry) : Bool :=
  match cutDot e.name with
  | none => false
  | some (nm, ext) => decide (ext ∈ supportedExtensions) && eqFold nm profile

/-! ## Config loading (`ParseConfig`) -/

/-- Model of `unmarshallYAML` (src/goconfig/config.go:144-151) over an
abstract `yaml.Unmarshal` collaborator: `yamlU content` is `some msg` when
the library parser rejects the content with error text `msg`; the failure is
wrapped as `ErrUnmarshalling` around that text. -/
def unmarshallYAML (yamlU : Str → Option Str) (content : Str) : Option GoErr :=
  (yamlU content).map .unmarshalling

/-- Result of `ParseConfig`. -/
inductive ParseResult where
  | okP
  | errP (e : GoErr)
  | panicP (e : GoErr)
deriving DecidableEq

/-- Model of `ParseConfig` (src/goconfig/config.go:77-88) with the default
deserializer `unmarshallYAML`: run `read`, then on success run the
deserializer once. The second component counts how many times the
deserializer is invoked during the call. -/
def ParseConfig (yamlU : Str → Option Str) (env : Str → Str)
    (dir : Option (List DirEntry)) (configName : Str) : ParseResult × Nat :=
  match read env dir configName with
  | .errR e => (.errP e, 0)
  | .panicR e => (.panicP e, 0)
  | .okR content =>
    match unmarshallYAML yamlU content with
    | some e => (.errP e, 1)
    | none => (.okP, 1)

/-! ## Env-file parsing -/

/-- Character class of the RE2 escape `\s`: tab, newline, form feed, carriage
return, space. -/
def isRegexSpace (c : Char) : Bool :=
  c = '\t' || c = '\n' || c = Char.ofNat 12 || c = '\r' || c = ' '

/-- Model of `unicode.IsSpace` on the characters it recognizes in the Latin-1
range (used by `strings.TrimSpace`). -/
def isGoSpace (c : Char) : Bool :=
  c = '\t' || c = '\n' || c = Char.ofNat 11 || c = Char.ofNat 12 || c = '\r' ||
    c = ' ' || c = Char.ofNat 133 || c = Char.ofNat 160

/-- Character class `[\w.-]` of the env-line key. -/
def isKeyChar (c : Char) : Bool := isWordChar c || c = '.' || c = '-'

/-- Drop characters satisfying `p` from both ends. -/
def trimBy (p : Char → Bool) (l : Str) : Str :=
  ((l.dropWhile p).reverse.dropWhile p).reverse

/-- Model of `strings.TrimSpace`. -/
def trimSpace (l : Str) : Str := trimBy isGoSpace l

/-- Model of `isCommentOrEmpty` (src/goconfig/config.go:184-186):
`strings.HasPrefix(line, "#")` — the first character is a hash — or the line
is empty after trimming space. -/
def isCommentOrEmpty (l : Str) : Bool :=
  l.head? == some '#' || trimSpace l == []

/-- Model of `regexEnvFromFile.MatchString` for the anchored pattern
whose parts are: optional space, a nonempty run of `[\w.-]` key characters,
optional space, an equals sign, then an optional value swallowed by
`\s*(.*)?\s*` up to the end. Because the key class, the space class and the
equals sign are pairwise disjoint, the greedy parse below is equivalent to
the regex match; the tail matches exactly when every newline of the
remainder sits in leading or trailing regex space. -/
def matchEnvLine (l : Str) : Bool :=
  let r1 := l.dropWhile isRegexSpace
  let key := r1.takeWhile isKeyChar
  let r2 := (r1.dropWhile isKeyChar).dropWhile isRegexSpace
  match key, r2 with
  | [], _ => false
  | _ :: _, '=' :: rest => (trimBy isRegexSpace rest).all (fun c => c != '\n')
  | _, _ => false

/-- Model of `strings.SplitN(line, "=", 2)`: `none` when the line has no
equals sign (a one-element split), otherwise the exact text before the first
equals sign and the exact text after it. -/
def splitEq (l : Str) : Option (Str × Str) :=
  if '=' ∈ l then some (l.takeWhile (· != '='), (l.dropWhile (· != '=')).tail)
  else none

/-- Model of the v2 `setEnvVarFromLine` (src/goconfig/config.go:189-202):
split at the first equals sign (error when there is none), validate the whole
line against the env-line regex (error on mismatch), and hand the split key
and value to `os.Setenv`. Both error sites wrap `ErrInvalidEnvFormat` around
the raw line. The returned pair is the key/value the setter receives. -/
def setEnvVarFromLine (l : Str) : Except GoErr (Str × Str) :=
  match splitEq l with
  | none => .error (.invalidEnvFormat l)
  | some (k, v) =>
    if matchEnvLine l then .ok (k, v) else .error (.invalidEnvFormat l)

/-- The process environment as written by the parser: later settings shadow
earlier ones. -/
abbrev EnvMap := List (Str × Str)

/-- Model of `os.Setenv` on the environment map. -/
def setEnv (m : EnvMap) (k v : Str) : EnvMap := (k, v) :: m

/-- Model of `parseEnvFile` (src/goconfig/config.go:164-181) on the list of
scanned lines: skip comment/blank lines, set a variable per valid line, and
stop at the first invalid line, returning its error together with the
environment as mutated so far (`os.Setenv` is modelled as always
succeeding; scan-level errors do not arise on an in-memory line list). -/
def parseEnvFile (m : EnvMap) : List Str → Option GoErr × EnvMap
  | [] => (none, m)
  | l :: rest =>
    if isCommentOrEmpty l then parseEnvFile m rest
    else
      match setEnvVarFromLine l with
      | .error e => (some e, m)
      | .ok (k, v) => parseEnvFile (setEnv m k v) rest

/-! ## `LoadEnv` with file-handle accounting -/

/-- State threaded through `LoadEnv`: the environment and the file handles
that have been opened and not yet closed. -/
structure LoadState where
  env : EnvMap
  openHandles : List Str
deriving DecidableEq

/-- The loop of `LoadEnv` (src/goconfig/config.go:59-72): for each name, open
the file (error return when it cannot be opened), parse it, and — only after
a successful parse — close the handle. The error branch after `parseEnvFile`
returns without reaching the `file.Close()` call, so the handle stays open.
`fs` maps a path to its lines, `none` when opening fails;
`path.Join(".", f)` is the identity on relative names and is omitted. -/
def LoadEnvGo (fs : Str → Option (List Str)) : List Str → LoadState → Option GoErr × LoadState
  | [], st => (none, st)
  | f :: rest, st =>
    match fs f with
    | none => (some (.openEnvFile f), st)
    | some lines =>
      let opened := st.openHandles ++ [f]
      match parseEnvFile st.env lines with
      | (some e, m) => (some e, ⟨m, opened⟩)
      | (none, m) => LoadEnvGo fs rest ⟨m, opened.erase f⟩

/-- Model of `LoadEnv` (src/goconfig/config.go:53-75): default to the single
file `.env` when no names are given, then run the loop starting from the
current environment with no open handles. -/
def LoadEnv (fs : Str → Option (List Str)) (m : EnvMap) (envFiles : List Str) :
    Option GoErr × LoadState :=
  LoadEnvGo fs (if envFiles = [] then [str ".env"] else envFiles) ⟨m, []⟩

/-! ## Lemmas about the placeholder scanner -/

/-- A successful `phAt` exhibits the placeholder structurally: the input is a
dollar, an opening brace, the nonempty word-character name, a closing brace,
then the remainder. -/
theorem phAt_some_shape {s w r2 : Str} (h : phAt s = some (w, r2)) :
    s = '$' :: '{' :: (w ++ '}' :: r2) ∧ w ≠ [] ∧ ∀ c ∈ w, isWordChar c = true := by
  unfold phAt at h
  split at h
  next rest =>
    split at h
    next w2 r2' hdrop =>
      split at h
      · exact absurd h (by simp)
      next hne =>
        simp only [Option.some.injEq, Prod.mk.injEq] at h
        obtain ⟨rfl, rfl⟩ := h
        refine ⟨?_, hne, fun c hc => List.mem_takeWhile_imp hc⟩
        conv_lhs => rw [← List.takeWhile_append_dropWhile isWordChar rest, hdrop]
    next => exact absurd h (by simp)
  next => exact absurd h (by simp)

/-- `phAt` recognizes a literal placeholder at the head of the input. -/
theorem phAt_ph {w : Str} (b : Str) (hw : w ≠ []) (hword : ∀ c ∈ w, isWordChar c = true) :
    phAt ('$' :: '{' :: (w ++ '}' :: b)) = some (w, b) := by
  have ht : (w ++ '}' :: b).takeWhile isWordChar = w := by
    rw [List.takeWhile_append_of_pos hword, List.takeWhile_cons_of_neg (by decide),
      List.append_nil]
  have hd : (w ++ '}' :: b).dropWhile isWordChar = '}' :: b := by
    rw [List.dropWhile_append_of_pos hword, List.dropWhile_cons_of_neg (by decide)]
  show (match (w ++ '}' :: b).takeWhile isWordChar, (w ++ '}' :: b).dropWhile isWordChar with
    | w', '}' :: r2 => if w' = [] then none else some (w', r2)
    | _, _ => none) = some (w, b)
  rw [ht, hd]
  simp [hw]

/-- Extending the text on the left preserves placeholder occurrences. -/
theorem containsPlaceholder_cons {t : Str} (c : Char) (h : ContainsPlaceholder t) :
    ContainsPlaceholder (c :: t) := by
  obtain ⟨a, w, b, hw, hword, rfl⟩ := h
  exact ⟨c :: a, w, b, hw, hword, rfl⟩

/-- A successful `phAt` witnesses a placeholder occurrence. -/
theorem contains_of_phAt_some {s w r2 : Str} (h : phAt s = some (w, r2)) :
    ContainsPlaceholder s := by
  obtain ⟨heq, hw, hword⟩ := phAt_some_shape h
  exact ⟨[], w, r2, hw, hword, heq⟩

/-- One-step unfolding of the substitution loop on a nonempty input with
budget left. -/
theorem go_cons (env : Str → Str) (c : Char) (rest : Str) (n : Nat) :
    replaceEnvVariables.go env (c :: rest) (n + 1) =
      match phAt (c :: rest) with
      | some (w, r2) =>
        if env w = [] then .panicked (.variableNotFound w)
        else appendR (env w) (replaceEnvVariables.go env r2 n)
      | none => consR c (replaceEnvVariables.go env rest n) := rfl

/-- Unfolding of the substitution loop when no match starts at the head. -/
theorem go_cons_none (env : Str → Str) (c : Char) (rest : Str) (n : Nat)
    (h : phAt (c :: rest) = none) :
    replaceEnvVariables.go env (c :: rest) (n + 1) =
      consR c (replaceEnvVariables.go env rest n) := by
  rw [go_cons, h]

/-- Unfolding of the substitution loop when a match starts at the head. -/
theorem go_cons_some (env : Str → Str) (c : Char) (rest : Str) (n : Nat)
    (w r2 : Str) (h : phAt (c :: rest) = some (w, r2)) :
    replaceEnvVariables.go env (c :: rest) (n + 1) =
      if env w = [] then .panicked (.variableNotFound w)
      else appendR (env w) (replaceEnvVariables.go env r2 n) := by
  rw [go_cons, h]

/-- One-step unfolding of the placeholder scan on a nonempty input. -/
theorem containsB_cons (c : Char) (rest : Str) :
    containsPlaceholderB (c :: rest) =
      match phAt (c :: rest) with
      | some _ => true
      | none => containsPlaceholderB rest := rfl

/-- Unfolding of the placeholder scan when no match starts at the head. -/
theorem containsB_cons_none {c : Char} {rest : Str} (h : phAt (c :: rest) = none) :
    containsPlaceholderB (c :: rest) = containsPlaceholderB rest := by
  rw [containsB_cons, h]

/-- Unfolding of the placeholder scan when a match starts at the head. -/
theorem containsB_cons_some {c : Char} {rest w r2 : Str}
    (h : phAt (c :: rest) = some (w, r2)) :
    containsPlaceholderB (c :: rest) = true := by
  rw [containsB_cons, h]

/-- The substitution loop is the identity on placeholder-free text. -/
theorem go_id (env : Str → Str) :
    ∀ (n : Nat) (s : Str), s.length ≤ n → ¬ContainsPlaceholder s →
      replaceEnvVariables.go env s n = .ok s := by
  intro n
  induction n with
  | zero =>
    intro s hs _
    have : s = [] := List.eq_nil_of_length_eq_zero (Nat.le_zero.mp hs)
    subst this
    rfl
  | succ n ih =>
    intro s hs hnc
    cases s with
    | nil => rfl
    | cons c rest =>
      have hp : phAt (c :: rest) = none := by
        cases hph : phAt (c :: rest) with
        | none => rfl
        | some p =>
          obtain ⟨w, r2⟩ := p
          exact absurd (contains_of_phAt_some hph) hnc
      rw [go_cons_none env c rest n hp]
      have hrest : ¬ContainsPlaceholder rest :=
        fun ht => hnc (containsPlaceholder_cons c ht)
      rw [ih rest (by simpa using Nat.le_of_succ_le_succ (by simpa using hs)) hrest]
      rfl

/-- `replaceEnvVariables` is the identity on placeholder-free text (core of
the `substitute(T) == T` property). -/
theorem replaceEnvVariables_id (env : Str → Str) (s : Str)
    (h : ¬ContainsPlaceholder s) : replaceEnvVariables env s = .ok s :=
  go_id env s.length s (Nat.le_refl _) h

/-- Soundness of the computable placeholder scan. -/
theorem contains_of_containsB : ∀ s : Str, containsPlaceholderB s = true →
    ContainsPlaceholder s := by
  intro s
  induction s with
  | nil => intro h; exact absurd h (by decide)
  | cons c rest ih =>
    intro h
    cases hph : phAt (c :: rest) with
    | none =>
      rw [containsB_cons_none hph] at h
      exact containsPlaceholder_cons c (ih h)
    | some p =>
      obtain ⟨w, r2⟩ := p
      exact contains_of_phAt_some hph

/-- Completeness of the computable placeholder scan. -/
theorem containsB_of_contains {s : Str} (h : ContainsPlaceholder s) :
    containsPlaceholderB s = true := by
  obtain ⟨a, w, b, hw, hword, rfl⟩ := h
  induction a with
  | nil =>
    rw [List.nil_append]
    exact containsB_cons_some (phAt_ph b hw hword)
  | cons c a' ih =>
    rw [List.cons_append]
    cases hph : phAt (c :: (a' ++ '$' :: '{' :: (w ++ '}' :: b))) with
    | none => rw [containsB_cons_none hph]; exact ih
    | some p =>
      obtain ⟨w', r2'⟩ := p
      exact containsB_cons_some hph

/-- A text with no placeholder trivially resolves all its placeholders. -/
theorem resolvesAll_of_not_contains (env : Str → Str) {a : Str}
    (h : ¬ContainsPlaceholder a) : ResolvesAll env a :=
  fun a₁ w b₁ hw hword heq => absurd ⟨a₁, w, b₁, hw, hword, heq⟩ h

/-- Dropping a prefix preserves the all-placeholders-resolve property. -/
theorem resolvesAll_append_right (env : Str → Str) (u v : Str)
    (h : ResolvesAll env (u ++ v)) : ResolvesAll env v := by
  intro a₁ w b₁ hw hword hv
  exact h (u ++ a₁) w b₁ hw hword (by rw [hv, List.append_assoc])

/-- List surgery: when a text ending in a known tail that starts with a
dollar equals a word run followed by a closing brace and a remainder, the
dollar must lie beyond the closing brace, because a dollar is neither a word
character nor a closing brace. -/
theorem append_dollar_split {w : Str} (hword : ∀ c ∈ w, isWordChar c = true) :
    ∀ (u t r2 : Str), u ++ '$' :: t = w ++ '}' :: r2 →
      ∃ a₃, u = w ++ '}' :: a₃ ∧ r2 = a₃ ++ '$' :: t := by
  induction w with
  | nil =>
    intro u t r2 h
    cases u with
    | nil =>
      injection h with h1 _
      exact absurd h1 (by decide)
    | cons d u' =>
      injection h with h1 h2
      exact ⟨u', by rw [h1]; rfl, h2.symm⟩
  | cons x w' ih =>
    intro u t r2 h
    cases u with
    | nil =>
      injection h with h1 _
      have hx := hword x (by simp)
      rw [← h1] at hx
      exact absurd hx (by decide)
    | cons d u' =>
      injection h with h1 h2
      obtain ⟨a₃, hu, hr⟩ := ih (fun c hc => hword c (by simp [hc])) u' t r2 h2
      exact ⟨a₃, by rw [h1, hu]; rfl, hr⟩

/-- When the scanner matches at the head of `a ++ '$' :: t` and `a` is
nonempty, the whole match lies inside `a`. -/
theorem phAt_append_split {a t w r2 : Str}
    (hph : phAt (a ++ '$' :: t) = some (w, r2)) (ha : a ≠ []) :
    ∃ a₃, a = '$' :: '{' :: (w ++ '}' :: a₃) ∧ r2 = a₃ ++ '$' :: t := by
  obtain ⟨heq, _, hword⟩ := phAt_some_shape hph
  cases a with
  | nil => exact absurd rfl ha
  | cons c a' =>
    rw [List.cons_append] at heq
    injection heq with h1 h2
    cases a' with
    | nil =>
      injection h2 with h3 _
      exact absurd h3 (by decide)
    | cons d a'' =>
      rw [List.cons_append] at h2
      injection h2 with h3 h4
      obtain ⟨a₃, hu, hr⟩ := append_dollar_split hword a'' t r2 h4
      exact ⟨a₃, by simp [h1, h3, hu], hr⟩

/-- The substitution loop panics with `ErrVariableNotFound` at the first
placeholder whose value is empty: all placeholders before it resolve, it
names `y`, and `env y` is empty. -/
theorem go_panic (env : Str → Str) {y : Str} (hy : y ≠ [])
    (hyword : ∀ c ∈ y, isWordChar c = true) (henv : env y = []) :
    ∀ (n : Nat) (a b : Str), (a ++ '$' :: '{' :: (y ++ '}' :: b)).length ≤ n →
      ResolvesAll env a →
      replaceEnvVariables.go env (a ++ '$' :: '{' :: (y ++ '}' :: b)) n =
        .panicked (.variableNotFound y) := by
  intro n
  induction n with
  | zero =>
    intro a b hlen _
    exfalso
    simp [List.length_append] at hlen
  | succ n ih =>
    intro a b hlen hres
    cases a with
    | nil =>
      rw [List.nil_append,
        go_cons_some env '$' ('{' :: (y ++ '}' :: b)) n y b (phAt_ph b hy hyword),
        if_pos henv]
    | cons c a' =>
      rw [List.cons_append]
      cases hph : phAt (c :: (a' ++ '$' :: '{' :: (y ++ '}' :: b))) with
      | none =>
        rw [go_cons_none env c _ n hph]
        have ha' : ResolvesAll env a' :=
          resolvesAll_append_right env [c] a' hres
        have hlen' : (a' ++ '$' :: '{' :: (y ++ '}' :: b)).length ≤ n := by
          simp only [List.cons_append, List.length_append, List.length_cons] at hlen ⊢
          omega
        rw [ih a' b hlen' ha']
        rfl
      | some p =>
        obtain ⟨w, r2⟩ := p
        rw [go_cons_some env c _ n w r2 hph]
        have hph' : phAt ((c :: a') ++ '$' :: ('{' :: (y ++ '}' :: b))) = some (w, r2) := by
          rw [List.cons_append]
          exact hph
        obtain ⟨a₃, hasplit, hr2⟩ := phAt_append_split hph' (by simp)
        have hshape := phAt_some_shape hph
        have hw : w ≠ [] := hshape.2.1
        have hword : ∀ c ∈ w, isWordChar c = true := hshape.2.2
        have henvw : env w ≠ [] :=
          hres [] w a₃ hw hword (by rw [hasplit]; rfl)
        rw [if_neg henvw]
        have hres₃ : ResolvesAll env a₃ := by
          have hall : ResolvesAll env ('$' :: '{' :: (w ++ '}' :: a₃)) := by
            rw [← hasplit]; exact hres
          have h1 := resolvesAll_append_right env ['$', '{'] (w ++ '}' :: a₃) hall
          have h2 := resolvesAll_append_right env (w ++ ['}']) a₃
            (by simpa using h1)
          exact h2
        have hlen₃ : (a₃ ++ '$' :: '{' :: (y ++ '}' :: b)).length ≤ n := by
          have hlc := congrArg List.length hasplit
          simp only [List.cons_append, List.length_append, List.length_cons] at hlen hlc ⊢
          omega
        rw [hr2]
        rw [ih a₃ b hlen₃ hres₃]
        rfl

/-- `replaceEnvVariables` panics (it does not return a normal value) with
`ErrVariableNotFound` naming the first placeholder whose environment value is
empty, i.e. whose variable is unset or set to the empty string. -/
theorem replaceEnvVariables_panics (env : Str → Str) (a y b : Str) (hy : y ≠ [])
    (hyword : ∀ c ∈ y, isWordChar c = true) (henv : env y = [])
    (hres : ResolvesAll env a) :
    replaceEnvVariables env (a ++ '$' :: '{' :: (y ++ '}' :: b)) =
      .panicked (.variableNotFound y) :=
  go_panic env hy hyword henv _ a b (Nat.le_refl _) hres

/-! ## Lemmas about `read` -/

/-- One-step unfolding of the `read` loop on a nonempty listing. -/
theorem readGo_cons (env : Str → Str) (fileName : Str) (e : DirEntry)
    (l : List DirEntry) :
    readGo env fileName (e :: l) =
      match cutDot e.name with
      | none => readGo env fileName l
      | some (nm, ext) =>
        if ext ∈ excludeExtensions then readGo env fileName l
        else if eqFold nm fileName then substToRead (replaceEnvVariables env e.content)
        else readGo env fileName l := rfl

/-- Unfolding of the `read` loop when the entry name has no dot. -/
theorem readGo_cons_cut_none (env : Str → Str) (fileName : Str) (e : DirEntry)
    (l : List DirEntry) (hc : cutDot e.name = none) :
    readGo env fileName (e :: l) = readGo env fileName l := by
  rw [readGo_cons, hc]

/-- Unfolding of the `read` loop when the entry name splits at a dot. -/
theorem readGo_cons_cut_some (env : Str → Str) (fileName : Str) (e : DirEntry)
    (l : List DirEntry) (nm ext : Str) (hc : cutDot e.name = some (nm, ext)) :
    readGo env fileName (e :: l) =
      if ext ∈ excludeExtensions then readGo env fileName l
      else if eqFold nm fileName then substToRead (replaceEnvVariables env e.content)
      else readGo env fileName l := by
  rw [readGo_cons, hc]

/-- An entry that the selection predicate rejects is skipped by the loop. -/
theorem readGo_cons_skip (env : Str → Str) (fileName : Str) (f : DirEntry)
    (l : List DirEntry) (h : selects fileName f = false) :
    readGo env fileName (f :: l) = readGo env fileName l := by
  unfold selects at h
  cases hc : cutDot f.name with
  | none => exact readGo_cons_cut_none env fileName f l hc
  | some p =>
    obtain ⟨nm, ext⟩ := p
    rw [hc] at h
    simp only [Bool.and_eq_false_iff, decide_eq_false_iff_not, Decidable.not_not] at h
    rw [readGo_cons_cut_some env fileName f l nm ext hc]
    by_cases hm : ext ∈ excludeExtensions
    · rw [if_pos hm]
    · rw [if_neg hm]
      have hfold : eqFold nm fileName = false := by
        cases h with
        | inl h => exact absurd h hm
        | inr h => exact h
      rw [hfold]
      simp

/-- An entry that the selection predicate accepts stops the loop with the
substituted content of that entry. -/
theorem readGo_cons_hit (env : Str → Str) (fileName : Str) (e : DirEntry)
    (l : List DirEntry) (h : selects fileName e = true) :
    readGo env fileName (e :: l) = substToRead (replaceEnvVariables env e.content) := by
  unfold selects at h
  cases hc : cutDot e.name with
  | none => rw [hc] at h; exact absurd h (by simp)
  | some p =>
    obtain ⟨nm, ext⟩ := p
    rw [hc] at h
    simp only [Bool.and_eq_true, decide_eq_true_eq] at h
    rw [readGo_cons_cut_some env fileName e l nm ext hc, if_neg h.1, if_pos h.2]

/-- First match wins: when every entry before `e` is rejected and `e` is
accepted, the loop returns the substituted content of `e`, whatever follows. -/
theorem readGo_first (env : Str → Str) (fileName : Str) (pre : List DirEntry)
    (e : DirEntry) (post : List DirEntry)
    (hpre : ∀ f ∈ pre, selects fileName f = false) (he : selects fileName e = true) :
    readGo env fileName (pre ++ e :: post) =
      substToRead (replaceEnvVariables env e.content) := by
  induction pre with
  | nil => exact readGo_cons_hit env fileName e post he
  | cons f pre' ih =>
    rw [List.cons_append, readGo_cons_skip env fileName f _ (hpre f (by simp))]
    exact ih (fun g hg => hpre g (by simp [hg]))

/-! ## Lemmas about env-file parsing -/

/-- Unfolding of `setEnvVarFromLine` when the line has no equals sign. -/
theorem setEnvVarFromLine_split_none {l : Str} (h : splitEq l = none) :
    setEnvVarFromLine l = .error (.invalidEnvFormat l) := by
  unfold setEnvVarFromLine
  rw [h]

/-- Unfolding of `setEnvVarFromLine` when the line splits at an equals sign. -/
theorem setEnvVarFromLine_split_some {l k v : Str} (h : splitEq l = some (k, v)) :
    setEnvVarFromLine l =
      if matchEnvLine l then .ok (k, v) else .error (.invalidEnvFormat l) := by
  unfold setEnvVarFromLine
  rw [h]

/-- Both failure sites of `setEnvVarFromLine` wrap `ErrInvalidEnvFormat`
around the raw line. -/
theorem setEnvVarFromLine_error_shape {l : Str} {e : GoErr}
    (h : setEnvVarFromLine l = .error e) : e = .invalidEnvFormat l := by
  cases hs : splitEq l with
  | none =>
    rw [setEnvVarFromLine_split_none hs] at h
    injection h with h1
    exact h1.symm
  | some p =>
    obtain ⟨k, v⟩ := p
    rw [setEnvVarFromLine_split_some hs] at h
    by_cases hm : matchEnvLine l = true
    · rw [if_pos hm] at h; exact absurd h (by simp)
    · rw [if_neg hm] at h
      injection h with h1
      exact h1.symm

/-- A line accepted by `setEnvVarFromLine` delivers exactly the split of the
Go code. -/
theorem setEnvVarFromLine_ok {l k v : Str}
    (h : setEnvVarFromLine l = .ok (k, v)) : splitEq l = some (k, v) := by
  cases hs : splitEq l with
  | none => rw [setEnvVarFromLine_split_none hs] at h; exact absurd h (by simp)
  | some p =>
    obtain ⟨k', v'⟩ := p
    rw [setEnvVarFromLine_split_some hs] at h
    by_cases hm : matchEnvLine l = true
    · rw [if_pos hm] at h
      injection h with h1
      rw [h1]
    · rw [if_neg hm] at h; exact absurd h (by simp)

/-- One-step unfolding of `parseEnvFile` on a nonempty line list. -/
theorem parseEnvFile_cons (m : EnvMap) (l : Str) (rest : List Str) :
    parseEnvFile m (l :: rest) =
      if isCommentOrEmpty l then parseEnvFile m rest
      else
        match setEnvVarFromLine l with
        | .error e => (some e, m)
        | .ok (k, v) => parseEnvFile (setEnv m k v) rest := rfl

/-- The first invalid candidate line stops the parse with
`ErrInvalidEnvFormat` around that raw line; the lines after it are never
processed and the environment stays exactly as the earlier valid lines left
it. -/
theorem parseEnvFile_stops_at_invalid (m : EnvMap) (pre : List Str) (bad : Str)
    (post : List Str)
    (hpre : ∀ l ∈ pre, isCommentOrEmpty l = true ∨ ∃ kv, setEnvVarFromLine l = .ok kv)
    (hbadc : isCommentOrEmpty bad = false)
    (hbad : ∃ e, setEnvVarFromLine bad = .error e) :
    parseEnvFile m (pre ++ bad :: post) =
      (some (.invalidEnvFormat bad), (parseEnvFile m pre).2) ∧
    (parseEnvFile m pre).1 = none := by
  induction pre generalizing m with
  | nil =>
    obtain ⟨e, he⟩ := hbad
    obtain rfl := setEnvVarFromLine_error_shape he
    refine ⟨?_, rfl⟩
    rw [List.nil_append, parseEnvFile_cons, if_neg (by simp [hbadc]), he]
    rfl
  | cons l pre' ih =>
    have ihargs : ∀ l' ∈ pre', isCommentOrEmpty l' = true ∨
        ∃ kv, setEnvVarFromLine l' = .ok kv :=
      fun l' hl' => hpre l' (by simp [hl'])
    by_cases hcom : isCommentOrEmpty l = true
    · rw [List.cons_append, parseEnvFile_cons, if_pos hcom, parseEnvFile_cons,
        if_pos hcom]
      exact ih m ihargs
    · have hok : ∃ kv, setEnvVarFromLine l = .ok kv := by
        rcases hpre l (by simp) with hc | hk
        · exact absurd hc hcom
        · exact hk
      obtain ⟨⟨k, v⟩, hok⟩ := hok
      rw [List.cons_append, parseEnvFile_cons, if_neg hcom, hok, parseEnvFile_cons,
        if_neg hcom, hok]
      exact ih (setEnv m k v) ihargs

/-- The head of a nonempty `dropWhile` result fails the predicate. -/
theorem dropWhile_eq_cons_head {p : Char → Bool} :
    ∀ (l : Str) (d : Char) (t : Str), l.dropWhile p = d :: t → p d = false := by
  intro l
  induction l with
  | nil => intro d t h; exact absurd h (by simp)
  | cons c l' ih =>
    intro d t h
    by_cases hc : p c = true
    · rw [List.dropWhile_cons_of_pos hc] at h
      exact ih d t h
    · rw [List.dropWhile_cons_of_neg hc] at h
      injection h with h1 _
      rw [← h1]
      exact Bool.eq_false_iff.mpr hc

/-- The split of `strings.SplitN(line, "=", 2)` is exact: the line is the key,
one equals sign, then the value, and the key contains no equals sign (so the
split happened at the first one). -/
theorem splitEq_some {l k v : Str} (h : splitEq l = some (k, v)) :
    l = k ++ '=' :: v ∧ '=' ∉ k := by
  unfold splitEq at h
  split at h
  next hmem =>
    simp only [Option.some.injEq, Prod.mk.injEq] at h
    obtain ⟨rfl, rfl⟩ := h
    obtain ⟨t, ht⟩ : ∃ t, l.dropWhile (fun c => c != '=') = '=' :: t := by
      cases hdw : l.dropWhile (fun c => c != '=') with
      | nil =>
        rw [List.dropWhile_eq_nil_iff] at hdw
        have := hdw '=' hmem
        exact absurd this (by simp)
      | cons d t =>
        have hd := dropWhile_eq_cons_head l d t hdw
        have hdeq : d = '=' := by simpa using hd
        exact ⟨t, by rw [hdeq]⟩
    constructor
    · rw [ht]
      simp only [List.tail_cons]
      conv_lhs => rw [← List.takeWhile_append_dropWhile (fun c => c != '=') l, ht]
    · intro hk
      have := List.mem_takeWhile_imp hk
      simp at this
  next => exact absurd h (by simp)

/-- Characters of an all-`p` list make `trimBy p` empty, and conversely. -/
theorem trimBy_eq_nil_iff {p : Char → Bool} {l : Str} :
    trimBy p l = [] ↔ ∀ c ∈ l, p c = true := by
  unfold trimBy
  constructor
  · intro h c hc
    rw [List.reverse_eq_nil_iff, List.dropWhile_eq_nil_iff] at h
    have hmem : c ∈ l.takeWhile p ++ l.dropWhile p := by
      rw [List.takeWhile_append_dropWhile]
      exact hc
    rcases List.mem_append.mp hmem with h1 | h2
    · exact List.mem_takeWhile_imp h1
    · exact h c (List.mem_reverse.mpr h2)
  · intro h
    rw [List.dropWhile_eq_nil_iff.mpr h]
    rfl

/-! ## Claims -/

/-- C1 (counterexample): a directory whose single entry `app.yaml` holds the
bytes of a placeholder is read back with the placeholder replaced, not with
its exact byte content, so `read` is not the identity on the stored bytes. -/
theorem C1_counterexample :
    read (fun w => if w = str "X" then str "v" else [])
        (some [⟨str "app.yaml", str "a${X}b"⟩]) (str "app") =
      .okR (str "avb") ∧
    str "avb" ≠ str "a${X}b" := by decide

/-- C1 (amended): when exactly one directory entry has a recognized extension
and a stem that matches the logical name case-insensitively, `read` returns
the byte content of that file with environment placeholders substituted; in
particular, when the content contains no placeholder it is returned
unchanged. -/
theorem C1_unique_match_returns_substituted_content (env : Str → Str)
    (fileName : Str) (pre : List DirEntry) (e : DirEntry) (post : List DirEntry)
    (hpre : ∀ f ∈ pre, selects fileName f = false)
    (hpost : ∀ f ∈ post, selects fileName f = false)
    (he : selects fileName e = true) :
    read env (some (pre ++ e :: post)) fileName =
      substToRead (replaceEnvVariables env e.content) ∧
    (¬ContainsPlaceholder e.content →
      read env (some (pre ++ e :: post)) fileName = .okR e.content) := by
  have h1 := readGo_first env fileName pre e post hpre he
  refine ⟨h1, fun hnc => ?_⟩
  have h2 := h1
  rw [replaceEnvVariables_id env e.content hnc] at h2
  exact h2

/-- C1 (witness): concrete directory with one matching `app.yaml` among a
rejected `app.go` and `readme.md`; the placeholder-free content comes back
unchanged. -/
theorem C1_witness :
    (∀ f ∈ ([⟨str "app.go", str "x"⟩] : List DirEntry),
      selects (str "app") f = false) ∧
    (∀ f ∈ ([⟨str "readme.md", str "y"⟩] : List DirEntry),
      selects (str "app") f = false) ∧
    selects (str "app") ⟨str "app.yaml", str "hello"⟩ = true ∧
    read (fun _ => []) (some ([⟨str "app.go", str "x"⟩] ++
        ⟨str "app.yaml", str "hello"⟩ :: [⟨str "readme.md", str "y"⟩]))
      (str "app") = .okR (str "hello") := by
  have hnc : ¬ContainsPlaceholder (str "hello") :=
    fun hc => absurd (containsB_of_contains hc) (by decide)
  exact ⟨by decide, by decide, by decide,
    (C1_unique_match_returns_substituted_content (fun _ => []) (str "app")
      [⟨str "app.go", str "x"⟩] ⟨str "app.yaml", str "hello"⟩
      [⟨str "readme.md", str "y"⟩] (by decide) (by decide) (by decide)).2 hnc⟩

/-- C2: with a `.env` file whose second line is invalid, `LoadEnv` returns
the validation error while the handle of `.env` is still open — the Go code
reaches `file.Close()` only on the success path (no `defer`), so the handle
is not released on the validation-failure exit path; on a fully valid file
the handle is released. This contradicts the claim that the handle is
released on every exit path. -/
theorem C2_handle_left_open_on_parse_error :
    LoadEnv (fun f => if f = str ".env" then
        some [str "APP_NAME=TestApp", str "APP_NAME:TestApp"] else none) [] [] =
      (some (.invalidEnvFormat (str "APP_NAME:TestApp")),
        ⟨[(str "APP_NAME", str "TestApp")], [str ".env"]⟩) ∧
    LoadEnv (fun f => if f = str ".env" then
        some [str "APP_NAME=TestApp"] else none) [] [] =
      (none, ⟨[(str "APP_NAME", str "TestApp")], []⟩) := by decide

/-- C3 (counterexample): the line made of a space, a hash and a letter has
hash as its first non-whitespace character, yet the classifier does not treat
it as a comment — `strings.HasPrefix(line, "#")` looks at the first character
only — and the parser then treats it as a candidate assignment and rejects
it. -/
theorem C3_counterexample :
    ((str " #x").dropWhile isGoSpace).head? = some '#' ∧
    isCommentOrEmpty (str " #x") = false ∧
    parseEnvFile [] [str " #x"] =
      (some (.invalidEnvFormat (str " #x")), []) := by decide

/-- C3 (amended): a line is classified comment/blank exactly when its very
first character is a hash or it consists entirely of whitespace; a hash
preceded by whitespace does not count, and such a line falls through to the
candidate-assignment path. -/
theorem C3_comment_blank_characterization (l : Str) :
    isCommentOrEmpty l = true ↔
      (∃ r, l = '#' :: r) ∨ ∀ c ∈ l, isGoSpace c = true := by
  unfold isCommentOrEmpty trimSpace
  rw [Bool.or_eq_true]
  constructor
  · rintro (h | h)
    · left
      cases l with
      | nil => exact absurd h (by decide)
      | cons c t =>
        simp only [List.head?_cons, beq_iff_eq, Option.some.injEq] at h
        exact ⟨t, by rw [h]⟩
    · right
      rw [beq_iff_eq] at h
      exact trimBy_eq_nil_iff.mp h
  · rintro (⟨r, rfl⟩ | h)
    · left
      simp
    · right
      rw [beq_iff_eq]
      exact trimBy_eq_nil_iff.mpr h

/-- C4: on a text containing a placeholder whose variable resolves to the
empty value (unset or set to the empty string, indistinguishable through
`os.Getenv`), and whose earlier placeholders all resolve, the substitution
terminates abnormally — the `panicked` constructor, distinct from any normal
return — carrying `ErrVariableNotFound` with that variable's name. -/
theorem C4_substitute_panics_on_unset_variable (env : Str → Str) (a y b : Str)
    (hy : y ≠ []) (hyword : ∀ c ∈ y, isWordChar c = true)
    (henv : env y = []) (hres : ResolvesAll env a) :
    replaceEnvVariables env (a ++ '$' :: '{' :: (y ++ '}' :: b)) =
      .panicked (.variableNotFound y) :=
  replaceEnvVariables_panics env a y b hy hyword henv hres

/-- C4 (witness): substituting `name: ` followed by the placeholder of the
unset variable `APP` panics with `ErrVariableNotFound` naming `APP`. -/
theorem C4_witness :
    ResolvesAll (fun _ => []) (str "name: ") ∧
    replaceEnvVariables (fun _ => [])
        (str "name: " ++ '$' :: '{' :: (str "APP" ++ '}' :: str " v")) =
      .panicked (.variableNotFound (str "APP")) := by
  have hres : ResolvesAll (fun _ => ([] : Str)) (str "name: ") :=
    resolvesAll_of_not_contains (fun _ => [])
      (fun h => absurd (containsB_of_contains h) (by decide))
  exact ⟨hres, C4_substitute_panics_on_unset_variable (fun _ => [])
    (str "name: ") (str "APP") (str " v") (by decide) (by decide) rfl hres⟩

/-- C5: an env file whose lines are valid (or skippable) up to the first
invalid candidate line fails with `ErrInvalidEnvFormat` carrying that raw
line; no line after it is processed (the result does not depend on them) and
the environment keeps exactly the variables the earlier valid lines set. -/
theorem C5_invalid_line_aborts_without_rollback (m : EnvMap) (pre : List Str)
    (bad : Str) (post : List Str)
    (hpre : ∀ l ∈ pre, isCommentOrEmpty l = true ∨ ∃ kv, setEnvVarFromLine l = .ok kv)
    (hbadc : isCommentOrEmpty bad = false)
    (hbad : ∃ e, setEnvVarFromLine bad = .error e) :
    parseEnvFile m (pre ++ bad :: post) =
      (some (.invalidEnvFormat bad), (parseEnvFile m pre).2) ∧
    (parseEnvFile m pre).1 = none :=
  parseEnvFile_stops_at_invalid m pre bad post hpre hbadc hbad

/-- C5 (witness): after a valid `APP_NAME=TestApp`, the separator-less line
`APP_NAME:TestApp` aborts the parse with the invalid-format error carrying
that line, the trailing `APP_VERSION=1.0` is never applied, and `APP_NAME`
stays set. -/
theorem C5_witness :
    (∀ l ∈ [str "APP_NAME=TestApp"],
      isCommentOrEmpty l = true ∨ ∃ kv, setEnvVarFromLine l = .ok kv) ∧
    isCommentOrEmpty (str "APP_NAME:TestApp") = false ∧
    (∃ e, setEnvVarFromLine (str "APP_NAME:TestApp") = .error e) ∧
    parseEnvFile [] ([str "APP_NAME=TestApp"] ++
        str "APP_NAME:TestApp" :: [str "APP_VERSION=1.0"]) =
      (some (.invalidEnvFormat (str "APP_NAME:TestApp")),
        [(str "APP_NAME", str "TestApp")]) := by
  have hpre : ∀ l ∈ [str "APP_NAME=TestApp"],
      isCommentOrEmpty l = true ∨ ∃ kv, setEnvVarFromLine l = .ok kv := by
    intro l hl
    simp only [List.mem_singleton] at hl
    subst hl
    exact Or.inr ⟨(str "APP_NAME", str "TestApp"), by decide⟩
  have hbad : ∃ e, setEnvVarFromLine (str "APP_NAME:TestApp") = .error e :=
    ⟨.invalidEnvFormat (str "APP_NAME:TestApp"), by decide⟩
  refine ⟨hpre, by decide, hbad, ?_⟩
  have h := (C5_invalid_line_aborts_without_rollback [] [str "APP_NAME=TestApp"]
    (str "APP_NAME:TestApp") [str "APP_VERSION=1.0"] hpre (by decide) hbad).1
  rw [h]
  decide

/-- C6: the `read` loop selects at most one entry per call — the first entry
in listing order that survives the no-extension skip and the deny-list filter
and whose stem matches the logical name case-insensitively wins: the result
is that entry's substituted content, and it is unchanged when the entries
after the winner are replaced by anything else. -/
theorem C6_first_match_wins (env : Str → Str) (fileName : Str)
    (pre : List DirEntry) (e : DirEntry) (post post' : List DirEntry)
    (hpre : ∀ f ∈ pre, selects fileName f = false)
    (he : selects fileName e = true) :
    read env (some (pre ++ e :: post)) fileName =
      substToRead (replaceEnvVariables env e.content) ∧
    read env (some (pre ++ e :: post)) fileName =
      read env (some (pre ++ e :: post')) fileName := by
  have h1 := readGo_first env fileName pre e post hpre he
  have h2 := readGo_first env fileName pre e post' hpre he
  exact ⟨h1, h1.trans h2.symm⟩

/-- C6 (witness): with a no-extension entry, a deny-listed `app.go` and a
non-matching stem ahead of the matching `App.yaml`, the loop returns the
winner's content whatever follows it. -/
theorem C6_witness :
    (∀ f ∈ ([⟨str "noext", str "x"⟩, ⟨str "app.go", str "y"⟩,
        ⟨str "other.yaml", str "z"⟩] : List DirEntry),
      selects (str "app") f = false) ∧
    selects (str "app") ⟨str "App.yaml", str "hello"⟩ = true ∧
    read (fun _ => []) (some ([⟨str "noext", str "x"⟩, ⟨str "app.go", str "y"⟩,
        ⟨str "other.yaml", str "z"⟩] ++ ⟨str "App.yaml", str "hello"⟩ ::
        [⟨str "app.yml", str "late"⟩])) (str "app") =
      read (fun _ => []) (some ([⟨str "noext", str "x"⟩, ⟨str "app.go", str "y"⟩,
        ⟨str "other.yaml", str "z"⟩] ++ ⟨str "App.yaml", str "hello"⟩ :: []))
      (str "app") :=
  ⟨by decide, by decide,
    (C6_first_match_wins (fun _ => []) (str "app")
      [⟨str "noext", str "x"⟩, ⟨str "app.go", str "y"⟩, ⟨str "other.yaml", str "z"⟩]
      ⟨str "App.yaml", str "hello"⟩ [⟨str "app.yml", str "late"⟩] []
      (by decide) (by decide)).2⟩

/-- When `read` succeeds, `ParseConfig` proceeds to the single deserializer
invocation. -/
theorem ParseConfig_read_ok (yamlU : Str → Option Str) (env : Str → Str)
    (dir : Option (List DirEntry)) (configName content : Str)
    (h : read env dir configName = .okR content) :
    ParseConfig yamlU env dir configName =
      match unmarshallYAML yamlU content with
      | some e => (.errP e, 1)
      | none => (.okP, 1) := by
  unfold ParseConfig
  rw [h]

/-- C7: when `read` succeeds and the YAML parser rejects the substituted
content with some error text, `ParseConfig` returns `ErrUnmarshalling`
wrapping exactly that text, and the deserializer has been invoked exactly
once (never retried). -/
theorem C7_unmarshal_error_wrapped_once (yamlU : Str → Option Str)
    (env : Str → Str) (dir : Option (List DirEntry)) (configName content msg : Str)
    (hread : read env dir configName = .okR content)
    (hrej : yamlU content = some msg) :
    ParseConfig yamlU env dir configName = (.errP (.unmarshalling msg), 1) := by
  rw [ParseConfig_read_ok yamlU env dir configName content hread]
  unfold unmarshallYAML
  rw [hrej]
  rfl

/-- C7 (witness): a one-file directory and a parser that rejects with `boom`
produce the wrapped unmarshalling error after exactly one deserializer
call. -/
theorem C7_witness :
    read (fun _ => []) (some [⟨str "app.yaml", str "x"⟩]) (str "app") =
      .okR (str "x") ∧
    ParseConfig (fun _ => some (str "boom")) (fun _ => [])
        (some [⟨str "app.yaml", str "x"⟩]) (str "app") =
      (.errP (.unmarshalling (str "boom")), 1) :=
  ⟨by decide, C7_unmarshal_error_wrapped_once (fun _ => some (str "boom"))
    (fun _ => []) (some [⟨str "app.yaml", str "x"⟩]) (str "app") (str "x")
    (str "boom") (by decide) rfl⟩

/-- C8: on a text with no placeholder occurrence, the substitution returns
the text unchanged, for every environment. -/
theorem C8_substitute_identity_on_placeholder_free (env : Str → Str) (s : Str)
    (h : ¬ContainsPlaceholder s) : replaceEnvVariables env s = .ok s :=
  replaceEnvVariables_id env s h

/-- C8 (witness): the placeholder-free text `name: TestApp` comes back
unchanged even under an environment that maps every name to a value. -/
theorem C8_witness :
    ¬ContainsPlaceholder (str "name: TestApp") ∧
    replaceEnvVariables (fun _ => str "v") (str "name: TestApp") =
      .ok (str "name: TestApp") := by
  have h : ¬ContainsPlaceholder (str "name: TestApp") :=
    fun hc => absurd (containsB_of_contains hc) (by decide)
  exact ⟨h, C8_substitute_identity_on_placeholder_free (fun _ => str "v")
    (str "name: TestApp") h⟩

/-- C9: every line the loader accepts hands the setter exactly the substring
before the first equals sign as key and the substring after it as value,
without any trimming: the line is literally key, equals sign, value, and the
key contains no equals sign. -/
theorem C9_setter_receives_exact_split (l k v : Str)
    (h : setEnvVarFromLine l = .ok (k, v)) :
    l = k ++ '=' :: v ∧ '=' ∉ k :=
  splitEq_some (setEnvVarFromLine_ok h)

/-- C9 (witness): the accepted line `FOO =bar` sets the key `FOO ` — with
its trailing space — and the value `bar`; nothing is trimmed. -/
theorem C9_witness :
    setEnvVarFromLine (str "FOO =bar") = .ok (str "FOO ", str "bar") ∧
    (str "FOO =bar" = str "FOO " ++ '=' :: str "bar" ∧ '=' ∉ str "FOO ") :=
  ⟨by decide, C9_setter_receives_exact_split (str "FOO =bar") (str "FOO ")
    (str "bar") (by decide)⟩

/-- C10: extension filtering is literal while stem matching folds case: the
allow-list variant rejects `app.YAML` because `YAML` is not literally in the
list, the deny-list variant accepts `main.GO` because `GO` is not literally
`go`, and yet `APP.yaml` is found under the logical name `app`. -/
theorem C10_extension_filtering_case_sensitive :
    readV1 (fun _ => []) (some [⟨str "app.YAML", str "x"⟩]) (str "app") =
      .errR (.unsupportedExt (str "app")) ∧
    read (fun _ => []) (some [⟨str "main.GO", str "x"⟩]) (str "main") =
      .okR (str "x") ∧
    readV1 (fun _ => []) (some [⟨str "APP.yaml", str "x"⟩]) (str "app") =
      .okR (str "x") := by decide

end GoConfig
